import Mathlib

/-!
# Verification of the CrowdStrike service-access analyzer's aggregation pipeline

Shallow embedding of the data pipeline of `src/components/CrowdStrikeAnalyzer.tsx`
(the revision containing `processData`, `convertToPST` and `filterResults`) and of
the single-pass analytics engine of the dashboard component (the revision without a
top-5 slice on `ipDistribution`, and the sliced revision in
`CrowdStrikeDashboard.tsx`).

Host (JavaScript) date facilities — `new Date(string)` parsing, the
`toLocaleString` calls with `timeZone: 'America/Los_Angeles'`, and
`setHours(23, 59, 59, 999)` — are modelled as an environment parameter `JSEnv`:
a parsed date is `some` of its millisecond epoch value, an Invalid Date is `none`.
`Date.prototype.toISOString` composed with re-parsing is the identity on valid
dates per ECMA-262, so `convertToPST` is modelled directly on the millisecond
value; on an Invalid Date `toISOString` throws a RangeError ("Invalid time
value"), modelled by the `Except.error` branches of `mkRow`.
-/

/-- A raw CSV record as handed to `processData` (field `'Source Name'` is
rendered `SourceName`). -/
structure RawEvent where
  Timestamp : String
  Source : String
  SourceName : String
  IP : String
  Service : String
  Target : String
deriving DecidableEq, Inhabited

/-- The host JavaScript date environment. -/
structure JSEnv where
  /-- `new Date(s).getTime()`; `none` models an Invalid Date (`NaN`). -/
  parseDate : String → Option Int
  /-- `toLocaleString('en-US', { timeZone: 'America/Los_Angeles', hour: '2-digit',
  minute: '2-digit', hour12: false })` on a valid date. -/
  localHM : Int → String
  /-- The same call with `second: '2-digit'` added (used by `convertToPST`). -/
  localHMS : Int → String
  /-- `d.setHours(23, 59, 59, 999)` applied to a valid parsed date `d`. -/
  endOfDay : Int → Int

/-- An event after the first `.map` of `processData`: the `Timestamp` string is
replaced by the parsed date and the derived `time_group` bucket is attached.
`toLocaleString` on an Invalid Date yields the string `"Invalid Date"`. -/
structure NormEvent where
  Source : String
  SourceName : String
  IP : String
  Service : String
  Target : String
  tsMs : Option Int
  time_group : String
deriving DecidableEq, Inhabited

/-- The derived time-of-day bucket of a timestamp string. -/
def timeBucketOf (env : JSEnv) (ts : String) : String :=
  match env.parseDate ts with
  | none => "Invalid Date"
  | some t => env.localHM t

/-- The per-row body of the first `.map` in `processData`. -/
def normalizeEvent (env : JSEnv) (e : RawEvent) : NormEvent :=
  { Source := e.Source, SourceName := e.SourceName, IP := e.IP,
    Service := e.Service, Target := e.Target,
    tsMs := env.parseDate e.Timestamp,
    time_group := timeBucketOf env e.Timestamp }

/-- The date-range state `{ startDate, endDate }`. -/
structure DateRange where
  startDate : String
  endDate : String
deriving DecidableEq, Inhabited

/-- The filter callback: `row.Timestamp >= startDate && row.Timestamp <= endDate`
with `endDate` widened by `setHours(23, 59, 59, 999)`.  A `NaN` on either side of
a JavaScript date comparison makes the comparison false, hence the catch-all. -/
def inRange (env : JSEnv) (r : DateRange) (e : NormEvent) : Bool :=
  match e.tsMs, env.parseDate r.startDate, env.parseDate r.endDate with
  | some t, some s, some en => decide (s ≤ t) && decide (t ≤ env.endOfDay en)
  | _, _, _ => false

/-- `dateRange?.startDate && dateRange?.endDate ? processedData.filter(...) :
processedData` — an absent range or an empty (falsy) bound skips filtering. -/
def filterByRange (env : JSEnv) (events : List NormEvent) (range : Option DateRange) :
    List NormEvent :=
  match range with
  | none => events
  | some r =>
      if r.startDate = "" ∨ r.endDate = "" then events
      else events.filter (inRange env r)

/-- Comparison used by `_.sortBy(filteredData, 'Timestamp')`.  On two valid dates
this is the millisecond order; an Invalid Date compares equal to everything under
lodash's comparator (its relative position is unspecified, and every result of
`processData` that depends on it is an error — see `mkRow`). -/
def tsLeB (a b : NormEvent) : Bool :=
  match a.tsMs, b.tsMs with
  | none, _ => true
  | some _, none => false
  | some x, some y => decide (x ≤ y)

def tsLe (a b : NormEvent) : Prop := tsLeB a b = true

instance : DecidableRel tsLe := fun a b => inferInstanceAs (Decidable (_ = true))

/-- The composite grouping key template literal
`${row.Source}|${row['Source Name']}|${row.IP}|${row.Service}|${row.Target}|${row.time_group}`. -/
def compositeKey (e : NormEvent) : String :=
  e.Source ++ ("|" ++ (e.SourceName ++ ("|" ++ (e.IP ++ ("|" ++ (e.Service ++
    ("|" ++ (e.Target ++ ("|" ++ e.time_group)))))))))

/-- Fuel-indexed implementation of grouping (lodash `_.groupBy` followed by
`Object.entries`): one entry per distinct key in first-occurrence order, each
group listing its members in list order.  The keys always contain `'|'`, hence
are never array-index-like, so `Object.entries` preserves insertion order. -/
def groupByKeyAux {α κ : Type} [DecidableEq κ] (f : α → κ) :
    Nat → List α → List (κ × List α)
  | _, [] => []
  | 0, _ :: _ => []
  | Nat.succ n, e :: es =>
      (f e, e :: es.filter (fun x => decide (f x = f e))) ::
        groupByKeyAux f n (es.filter (fun x => !decide (f x = f e)))

def groupByKey {α κ : Type} [DecidableEq κ] (f : α → κ) (l : List α) :
    List (κ × List α) :=
  groupByKeyAux f l.length l

/-- One row of the frequency table. -/
structure ProcessedRow where
  Source : String
  SourceName : String
  IP : String
  Service : String
  Target : String
  Time : String
  freq : Nat
deriving DecidableEq, Inhabited

/-- `convertToPST` — the `toLocaleString(...) + ' PST'` rendering of a valid
parsed date (the `toISOString`/re-parse round trip is the identity). -/
def convertToPST (env : JSEnv) (t : Int) : String :=
  env.localHMS t ++ " PST"

/-- `key.split('|')`, via an explicit splitter on the character list. -/
def splitPipeP : List Char → List Char × List (List Char)
  | [] => ([], [])
  | c :: cs =>
      let p := splitPipeP cs
      if c = '|' then ([], p.1 :: p.2) else (c :: p.1, p.2)

def splitPipeParts (l : List Char) : List (List Char) :=
  (splitPipeP l).1 :: (splitPipeP l).2

def splitPipe (s : String) : List String :=
  (splitPipeParts s.data).map String.mk

/-- The body of the `Object.entries(grouped).map` callback: destructure the key
with `key.split('|')` (a missing component destructures to the empty value) and
render `Time` from the group's first element.  `group[0].Timestamp.toISOString()`
throws a RangeError "Invalid time value" on an Invalid Date, surfaced here as
`Except.error`. -/
def mkRow (env : JSEnv) (p : String × List NormEvent) : Except String ProcessedRow :=
  let parts := splitPipe p.1
  match p.2.head? with
  | none => Except.error "Invalid time value"
  | some e =>
      match e.tsMs with
      | none => Except.error "Invalid time value"
      | some t =>
          Except.ok
            { Source := parts.getD 0 "", SourceName := parts.getD 1 "",
              IP := parts.getD 2 "", Service := parts.getD 3 "",
              Target := parts.getD 4 "",
              Time := convertToPST env t, freq := p.2.length }

/-- The `.map` over `Object.entries(grouped)`, with the first thrown exception
propagating (JavaScript evaluates the callback left to right). -/
def mapRows (env : JSEnv) : List (String × List NormEvent) →
    Except String (List ProcessedRow)
  | [] => Except.ok []
  | p :: ps =>
      match mkRow env p with
      | Except.error m => Except.error m
      | Except.ok r =>
          match mapRows env ps with
          | Except.error m => Except.error m
          | Except.ok rs => Except.ok (r :: rs)

/-- JavaScript string comparison `a < b`: lexicographic on code units. -/
def lexLt : List Char → List Char → Bool
  | [], [] => false
  | [], _ :: _ => true
  | _ :: _, [] => false
  | c :: cs, d :: ds =>
      if c.toNat < d.toNat then true
      else if d.toNat < c.toNat then false
      else lexLt cs ds

def strLt (a b : String) : Bool := lexLt a.data b.data

/-- Comparator of the final `_.orderBy(frequencyData, ['Source', 'freq'],
['asc', 'desc'])`: `Source` ascending (lexicographic), then `freq` descending. -/
def rowLeB (a b : ProcessedRow) : Bool :=
  strLt a.Source b.Source || (decide (a.Source = b.Source) && decide (b.freq ≤ a.freq))

def rowLe (a b : ProcessedRow) : Prop := rowLeB a b = true

instance : DecidableRel rowLe := fun a b => inferInstanceAs (Decidable (_ = true))

/-- The normalized, date-filtered, chronologically sorted event list flowing into
the grouping step of `processData`. -/
def pipelineEvents (env : JSEnv) (data : List RawEvent) (range : Option DateRange) :
    List NormEvent :=
  List.insertionSort tsLe (filterByRange env (data.map (normalizeEvent env)) range)

/-- `processData`: normalize, optionally date-filter, sort by timestamp, group by
the composite key, emit one row per group, order by `Source` asc / `freq` desc.
The surrounding try/catch re-throws any exception as
"Data processing failed: ...". -/
def processData (env : JSEnv) (data : List RawEvent) (range : Option DateRange) :
    Except String (List ProcessedRow) :=
  match mapRows env (groupByKey compositeKey (pipelineEvents env data range)) with
  | Except.error m => Except.error ("Data processing failed: " ++ m)
  | Except.ok rows => Except.ok (List.insertionSort rowLe rows)

/-! ## The query filter (`filterResults`) -/

/-- `String.prototype.toLowerCase`, character-wise. -/
def toLowerStr (s : String) : String := String.mk (s.data.map Char.toLower)

def startsWithL : List Char → List Char → Bool
  | _, [] => true
  | [], _ :: _ => false
  | c :: cs, d :: ds => decide (c = d) && startsWithL cs ds

/-- `String.prototype.includes` on character lists. -/
def containsSub : List Char → List Char → Bool
  | [], needle => needle.isEmpty
  | h :: t, needle => startsWithL (h :: t) needle || containsSub t needle

def strIncludes (s sub : String) : Bool := containsSub s.data sub.data

/-- The search callback: some field's lowercasing contains the lowercased term. -/
def rowMatches (term : String) (row : ProcessedRow) : Bool :=
  let searchLower := toLowerStr term
  strIncludes (toLowerStr row.Source) searchLower ||
  strIncludes (toLowerStr row.Target) searchLower ||
  strIncludes (toLowerStr row.SourceName) searchLower ||
  strIncludes (toLowerStr row.IP) searchLower ||
  strIncludes (toLowerStr row.Service) searchLower

/-- `filterResults`: exact `IP` match when a source is selected (truthy =
non-empty), then the case-insensitive any-field substring filter when a search
term is set. -/
def filterResults (selectedSource searchTerm : String) (data : List ProcessedRow) :
    List ProcessedRow :=
  let filtered := if selectedSource = "" then data
    else data.filter (fun row => decide (row.IP = selectedSource))
  if searchTerm = "" then filtered
  else filtered.filter (rowMatches searchTerm)

/-! ## The single-pass analytics engine -/

/-- `row.Source || 'Unknown'` (and likewise for `Service` and `Target`): JS
falsy-string normalization. -/
def orUnknown (s : String) : String := if s = "" then "Unknown" else s

/-- `Set.prototype.add` on an insertion-ordered duplicate-free list. -/
def addElem (x : String) (l : List String) : List String :=
  if x ∈ l then l else l ++ [x]

/-- JavaScript `Map` mutation pattern: `if (!m.has(k)) m.set(k, v0); f(m.get(k))`.
A fresh key is appended (JS Maps iterate in insertion order). -/
def updateA {V : Type} (k : String) (f : V → V) (v0 : V) :
    List (String × V) → List (String × V)
  | [] => [(k, f v0)]
  | (k1, v) :: rest =>
      if k1 = k then (k1, f v) :: rest else (k1, v) :: updateA k f v0 rest

structure SourceAcc where
  count : Nat
  totalFreq : Nat
deriving DecidableEq, Inhabited

structure TimeAcc where
  timePattern : String
  count : Nat
  totalFreq : Nat
  sources : List String
  targets : List String
deriving DecidableEq, Inhabited

structure IpAcc where
  ip : String
  count : Nat
  totalFreq : Nat
  hostnames : List String
  services : List String
  targets : List String
deriving DecidableEq, Inhabited

/-- The six accumulator maps of the analytics `useMemo`'s single pass. -/
structure AnState where
  sourceMap : List (String × SourceAcc)
  serviceMap : List (String × Nat)
  targetMap : List (String × Nat)
  timeMap : List (String × TimeAcc)
  ipMap : List (String × IpAcc)
  relationMap : List (String × Nat)
deriving DecidableEq, Inhabited

def anInit : AnState := ⟨[], [], [], [], [], []⟩

/-- `sourceData.count++; sourceData.totalFreq += row.freq`. -/
def sourceUpd (row : ProcessedRow) (a : SourceAcc) : SourceAcc :=
  { count := a.count + 1, totalFreq := a.totalFreq + row.freq }

/-- `timeData.count++; totalFreq += row.freq; sources.add(row.Source);
targets.add(row.Target)` — note the raw (un-normalized) `Source` and `Target`. -/
def timeUpd (row : ProcessedRow) (a : TimeAcc) : TimeAcc :=
  { timePattern := a.timePattern, count := a.count + 1,
    totalFreq := a.totalFreq + row.freq,
    sources := addElem row.Source a.sources,
    targets := addElem row.Target a.targets }

/-- `ipData.count++; totalFreq += row.freq; if (row['Source Name'])
hostnames.add(...); services.add(row.Service); targets.add(row.Target)`. -/
def ipUpd (row : ProcessedRow) (a : IpAcc) : IpAcc :=
  { ip := a.ip, count := a.count + 1, totalFreq := a.totalFreq + row.freq,
    hostnames := (if row.SourceName = "" then a.hostnames
                  else addElem row.SourceName a.hostnames),
    services := addElem row.Service a.services,
    targets := addElem row.Target a.targets }

/-- The body of the `data.forEach(row => ...)` pass. -/
def anStep (s : AnState) (row : ProcessedRow) : AnState :=
  let sourceKey := orUnknown row.Source
  let serviceKey := orUnknown row.Service
  let targetKey := orUnknown row.Target
  { sourceMap := updateA sourceKey (sourceUpd row) ⟨0, 0⟩ s.sourceMap,
    serviceMap := updateA serviceKey (fun c => c + 1) 0 s.serviceMap,
    targetMap := updateA targetKey (fun f => f + row.freq) 0 s.targetMap,
    timeMap := updateA row.Time (timeUpd row) ⟨row.Time, 0, 0, [], []⟩ s.timeMap,
    ipMap := updateA row.IP (ipUpd row) ⟨row.IP, 0, 0, [], [], []⟩ s.ipMap,
    relationMap := updateA (sourceKey ++ ("->" ++ targetKey))
      (fun st => st + row.freq) 0 s.relationMap }

/-- `data.forEach(row => ...)` over the whole filtered frequency table. -/
def anFold (rows : List ProcessedRow) : AnState := rows.foldl anStep anInit

/-- One entry of the `ipDistribution` projection. -/
structure IpEntry where
  ip : String
  count : Nat
  totalFreq : Nat
  hostnames : List String
  services : List String
  targets : List String
  uniqueServices : Nat
  uniqueTargets : Nat
  avgEventsPerTarget : Nat
deriving DecidableEq, Inhabited

/-- `Math.round(a / b)` for naturals with `b > 0` (round half away from zero,
which for non-negative reals is floor of `a / b + 1 / 2`). -/
def jsRound (a b : Nat) : Nat := (2 * a + b) / (2 * b)

/-- The `.map` callback over `Array.from(ipMap.entries())`. -/
def ipEntryOf (p : String × IpAcc) : IpEntry :=
  { ip := p.2.ip, count := p.2.count, totalFreq := p.2.totalFreq,
    hostnames := p.2.hostnames, services := p.2.services, targets := p.2.targets,
    uniqueServices := p.2.services.length, uniqueTargets := p.2.targets.length,
    avgEventsPerTarget := jsRound p.2.totalFreq p.2.targets.length }

/-- `.sort((a, b) => b.totalFreq - a.totalFreq)`. -/
def ipGe (a b : IpEntry) : Prop := b.totalFreq ≤ a.totalFreq

instance : DecidableRel ipGe := fun a b => inferInstanceAs (Decidable (_ ≤ _))

/-- `ipDistribution` of the unsliced dashboard revision: per-IP rollups sorted by
`totalFreq` descending. -/
def ipDistribution (rows : List ProcessedRow) : List IpEntry :=
  List.insertionSort ipGe ((anFold rows).ipMap.map ipEntryOf)

/-- `ipDistribution` of `CrowdStrikeDashboard.tsx`, which appends `.slice(0, 5)`. -/
def ipDistributionDash (rows : List ProcessedRow) : List IpEntry :=
  (ipDistribution rows).take 5

/-! ## A concrete host environment for witnesses and counterexamples -/

/-- Decimal parser for the concrete test environment. -/
def parseDigitsAux : Nat → List Char → Option Nat
  | acc, [] => some acc
  | acc, c :: cs =>
      if 48 ≤ c.toNat ∧ c.toNat ≤ 57 then
        parseDigitsAux (acc * 10 + (c.toNat - 48)) cs
      else none

/-- A concrete `JSEnv` used to evaluate the pipeline on closed inputs: date
strings that are decimal numerals parse to that millisecond value, anything else
is an Invalid Date; the locale renderings are injective taggings of the value;
`endOfDay` widens a (midnight-parsed) date by `23:59:59.999`. -/
def testEnv : JSEnv :=
  { parseDate := fun s =>
      match s.data with
      | [] => none
      | l => (parseDigitsAux 0 l).map Int.ofNat,
    localHM := fun t => "HM:" ++ toString t,
    localHMS := fun t => "HMS:" ++ toString t,
    endOfDay := fun t => t + 86399999 }

/-- The six-component grouping tuple `(Source, SourceName, IP, Service, Target,
timeBucket)` the specification groups by. -/
structure GroupKey where
  Source : String
  SourceName : String
  IP : String
  Service : String
  Target : String
  bucket : String
deriving DecidableEq, Inhabited

def tupleOf (e : NormEvent) : GroupKey :=
  ⟨e.Source, e.SourceName, e.IP, e.Service, e.Target, e.time_group⟩

/-- A string containing no `'|'` delimiter. -/
def pipeFree (s : String) : Prop := ('|' ∈ s.data) = False

instance (s : String) : Decidable (pipeFree s) :=
  inferInstanceAs (Decidable (_ = False))

def PipeFreeEvent (e : RawEvent) : Prop :=
  pipeFree e.Source ∧ pipeFree e.SourceName ∧ pipeFree e.IP ∧
    pipeFree e.Service ∧ pipeFree e.Target

def PipeFreeN (e : NormEvent) : Prop :=
  pipeFree e.Source ∧ pipeFree e.SourceName ∧ pipeFree e.IP ∧
    pipeFree e.Service ∧ pipeFree e.Target

instance (e : RawEvent) : Decidable (PipeFreeEvent e) :=
  inferInstanceAs (Decidable (_ ∧ _ ∧ _ ∧ _ ∧ _))

instance (e : NormEvent) : Decidable (PipeFreeN e) :=
  inferInstanceAs (Decidable (_ ∧ _ ∧ _ ∧ _ ∧ _))

/-- Modelled from the spec: the row the Pattern Aggregator emits for one group —
tuple fields copied verbatim, `Time` the PST rendering of the group's first
(earliest-sorted) event, `freq` the group size. -/
def specRow (env : JSEnv) (p : GroupKey × List NormEvent) : ProcessedRow :=
  { Source := p.1.Source, SourceName := p.1.SourceName, IP := p.1.IP,
    Service := p.1.Service, Target := p.1.Target,
    Time := match (p.2.headI).tsMs with
            | some t => convertToPST env t
            | none => "Invalid time value",
    freq := p.2.length }

def unsplitP (p : List Char × List (List Char)) : List Char :=
  p.1 ++ (p.2.map (fun g => '|' :: g)).flatten

/-- A second concrete environment whose `localHM` rendering is constant, making
it immediate that no valid date's bucket collides with the `"Invalid Date"`
marker string. -/
def testEnv2 : JSEnv :=
  { parseDate := fun s =>
      match s.data with
      | [] => none
      | l => (parseDigitsAux 0 l).map Int.ofNat,
    localHM := fun _ => "00:00",
    localHMS := fun t => "HMS:" ++ toString t,
    endOfDay := fun t => t + 86399999 }

/-! ## Order-theoretic properties of the comparators -/

theorem charToNat_inj {c d : Char} (h : c.toNat = d.toNat) : c = d := by
  have hv : c.val = d.val := by
    unfold Char.toNat at h
    exact UInt32.toNat.inj h
  exact Char.ext hv

theorem lexLt_trans : ∀ a b c : List Char,
    lexLt a b = true → lexLt b c = true → lexLt a c = true := by
  intro a
  induction a with
  | nil =>
      intro b c h1 h2
      cases b with
      | nil => simp [lexLt] at h1
      | cons y ys =>
          cases c with
          | nil => simp [lexLt] at h2
          | cons z zs => simp [lexLt]
  | cons x xs ih =>
      intro b c h1 h2
      cases b with
      | nil => simp [lexLt] at h1
      | cons y ys =>
          cases c with
          | nil => simp [lexLt] at h2
          | cons z zs =>
              simp only [lexLt] at h1 h2 ⊢
              split_ifs at h1 h2 ⊢ <;>
                first
                  | rfl
                  | omega
                  | exact ih ys zs h1 h2

theorem lexLt_conn : ∀ a b : List Char,
    lexLt a b = false → lexLt b a = false → a = b := by
  intro a
  induction a with
  | nil =>
      intro b h1 _
      cases b with
      | nil => rfl
      | cons y ys => simp [lexLt] at h1
  | cons x xs ih =>
      intro b h1 h2
      cases b with
      | nil => simp [lexLt] at h2
      | cons y ys =>
          simp only [lexLt] at h1 h2
          split_ifs at h1 h2 <;>
            first
              | omega
              | (rename_i hxy hyx
                 have hx : x = y := charToNat_inj (by omega)
                 rw [hx, ih ys h1 h2])

theorem strLt_trans {a b c : String} (h1 : strLt a b = true) (h2 : strLt b c = true) :
    strLt a c = true := lexLt_trans a.data b.data c.data h1 h2

theorem strLt_conn {a b : String} (h1 : strLt a b = false) (h2 : strLt b a = false) :
    a = b := by
  have h := lexLt_conn a.data b.data h1 h2
  cases a
  cases b
  exact congrArg String.mk h

instance : IsTotal ProcessedRow rowLe := by
  constructor
  intro a b
  unfold rowLe rowLeB
  by_cases h1 : strLt a.Source b.Source = true
  · left
    simp [h1]
  · by_cases h2 : strLt b.Source a.Source = true
    · right
      simp [h2]
    · have heq : a.Source = b.Source :=
        strLt_conn (Bool.not_eq_true _ ▸ h1) (Bool.not_eq_true _ ▸ h2)
      rcases Nat.le_total a.freq b.freq with hf | hf
      · right
        simp [heq, hf]
      · left
        simp [heq, hf]

instance : IsTrans ProcessedRow rowLe := by
  constructor
  intro a b c h1 h2
  unfold rowLe rowLeB at h1 h2 ⊢
  simp only [Bool.or_eq_true, Bool.and_eq_true, decide_eq_true_eq] at h1 h2 ⊢
  rcases h1 with h1 | ⟨h1e, h1f⟩
  · rcases h2 with h2 | ⟨h2e, h2f⟩
    · exact Or.inl (strLt_trans h1 h2)
    · exact Or.inl (h2e ▸ h1)
  · rcases h2 with h2 | ⟨h2e, h2f⟩
    · exact Or.inl (h1e ▸ h2)
    · exact Or.inr ⟨h1e.trans h2e, Nat.le_trans h2f h1f⟩

theorem tsLe_refl (a : NormEvent) : tsLe a a := by
  unfold tsLe tsLeB
  cases h : a.tsMs <;> simp

instance : IsTotal NormEvent tsLe := by
  constructor
  intro a b
  unfold tsLe tsLeB
  cases ha : a.tsMs with
  | none => simp
  | some x =>
      cases hb : b.tsMs with
      | none => simp
      | some y =>
          rcases Int.le_total x y with h | h
          · left; simp [h]
          · right; simp [h]

instance : IsTrans NormEvent tsLe := by
  constructor
  intro a b c h1 h2
  unfold tsLe tsLeB at h1 h2 ⊢
  cases ha : a.tsMs with
  | none => simp
  | some x =>
      cases hb : b.tsMs with
      | none => simp [ha, hb] at h1
      | some y =>
          cases hc : c.tsMs with
          | none => simp [hb, hc] at h2
          | some z =>
              simp [ha, hb] at h1
              simp [hb, hc] at h2
              simp [Int.le_trans h1 h2]

instance : IsTotal IpEntry ipGe := by
  constructor
  intro a b
  unfold ipGe
  exact (Nat.le_total b.totalFreq a.totalFreq)

instance : IsTrans IpEntry ipGe := by
  constructor
  intro a b c h1 h2
  exact Nat.le_trans h2 h1

/-! ## Grouping lemmas -/

theorem length_filter_not_add {α : Type} (p : α → Bool) (l : List α) :
    (l.filter p).length + (l.filter (fun x => !p x)).length = l.length := by
  induction l with
  | nil => rfl
  | cons a l ih => cases h : p a <;> simp [List.filter_cons, h] <;> omega

theorem groupByKeyAux_irrel {α κ : Type} [DecidableEq κ] (f : α → κ) :
    ∀ (N : Nat) (l : List α) (n m : Nat), l.length ≤ N → l.length ≤ n →
      l.length ≤ m → groupByKeyAux f n l = groupByKeyAux f m l := by
  intro N
  induction N with
  | zero =>
      intro l n m hN _ _
      cases l with
      | nil => cases n <;> cases m <;> rfl
      | cons e es => simp at hN
  | succ N ih =>
      intro l n m hN hn hm
      cases l with
      | nil => cases n <;> cases m <;> rfl
      | cons e es =>
          cases n with
          | zero => simp at hn
          | succ n1 =>
              cases m with
              | zero => simp at hm
              | succ m1 =>
                  simp only [groupByKeyAux]
                  congr 1
                  apply ih
                  · exact le_trans (List.length_filter_le _ es)
                      (Nat.le_of_succ_le_succ hN)
                  · exact le_trans (List.length_filter_le _ es)
                      (Nat.le_of_succ_le_succ hn)
                  · exact le_trans (List.length_filter_le _ es)
                      (Nat.le_of_succ_le_succ hm)

theorem groupByKey_cons {α κ : Type} [DecidableEq κ] (f : α → κ) (e : α) (es : List α) :
    groupByKey f (e :: es) =
      (f e, e :: es.filter (fun x => decide (f x = f e))) ::
        groupByKey f (es.filter (fun x => !decide (f x = f e))) := by
  unfold groupByKey
  simp only [List.length_cons, groupByKeyAux]
  congr 1
  exact groupByKeyAux_irrel f es.length _ es.length _
    (List.length_filter_le _ es) (List.length_filter_le _ es) (le_refl _)

theorem groupByKey_rec_aux {α κ : Type} [DecidableEq κ] (f : α → κ) (P : List α → Prop)
    (h0 : P []) (h1 : ∀ e es, P (es.filter (fun x => !decide (f x = f e))) → P (e :: es)) :
    ∀ (N : Nat) (l : List α), l.length ≤ N → P l := by
  intro N
  induction N with
  | zero =>
      intro l h
      cases l with
      | nil => exact h0
      | cons e es => simp at h
  | succ N ih =>
      intro l h
      cases l with
      | nil => exact h0
      | cons e es =>
          exact h1 e es (ih _ (le_trans (List.length_filter_le _ es)
            (Nat.le_of_succ_le_succ h)))

theorem groupByKey_recursion {α κ : Type} [DecidableEq κ] (f : α → κ) (P : List α → Prop)
    (h0 : P []) (h1 : ∀ e es, P (es.filter (fun x => !decide (f x = f e))) → P (e :: es)) :
    ∀ l, P l :=
  fun l => groupByKey_rec_aux f P h0 h1 l.length l (le_refl _)

theorem groupByKey_sum_lengths {α κ : Type} [DecidableEq κ] (f : α → κ) :
    ∀ l : List α, ((groupByKey f l).map (fun p => p.2.length)).sum = l.length := by
  apply groupByKey_recursion f
    (fun l => ((groupByKey f l).map (fun p => p.2.length)).sum = l.length)
  · simp [groupByKey, groupByKeyAux]
  · intro e es ih
    rw [groupByKey_cons]
    simp only [List.map_cons, List.sum_cons, List.length_cons, ih]
    have := length_filter_not_add (fun x => decide (f x = f e)) es
    omega

theorem groupByKey_mem {α κ : Type} [DecidableEq κ] (f : α → κ) :
    ∀ (l : List α), ∀ p ∈ groupByKey f l,
      p.2 = l.filter (fun x => decide (f x = p.1)) ∧ ∃ e ∈ l, f e = p.1 := by
  apply groupByKey_recursion f
    (fun l => ∀ p ∈ groupByKey f l,
      p.2 = l.filter (fun x => decide (f x = p.1)) ∧ ∃ e ∈ l, f e = p.1)
  · intro p hp
    simp [groupByKey, groupByKeyAux] at hp
  · intro e es ih p hp
    rw [groupByKey_cons] at hp
    rcases List.mem_cons.mp hp with hp | hp
    · subst hp
      constructor
      · rw [List.filter_cons]
        simp
      · exact ⟨e, List.mem_cons_self e es, rfl⟩
    · rcases ih p hp with ⟨hfilt, e2, he2mem, he2key⟩
      have he2es : e2 ∈ es ∧ ¬ f e2 = f e := by
        have := List.mem_filter.mp he2mem
        simpa using this
      have hne : ¬ f e = p.1 := by
        intro hcontra
        exact he2es.2 (he2key.trans hcontra.symm)
      constructor
      · rw [hfilt, List.filter_filter, List.filter_cons]
        simp only [hne, decide_eq_true_eq, if_neg hne]
        apply List.filter_congr
        intro x hx
        by_cases hfx : f x = p.1
        · have hxe : ¬ f x = f e := by
            intro hc
            rw [hc] at hfx
            exact hne hfx
          have hne2 : ¬ p.1 = f e := fun hc => hne hc.symm
          simp [hfx, hxe, hne2]
        · simp [hfx]
      · exact ⟨e2, List.mem_cons_of_mem e he2es.1, he2key⟩

theorem groupByKey_shape {α κ : Type} [DecidableEq κ] (f : α → κ) :
    ∀ (l : List α), ∀ p ∈ groupByKey f l, ∃ a t, p.2 = a :: t ∧ p.1 = f a := by
  apply groupByKey_recursion f
    (fun l => ∀ p ∈ groupByKey f l, ∃ a t, p.2 = a :: t ∧ p.1 = f a)
  · intro p hp
    simp [groupByKey, groupByKeyAux] at hp
  · intro e es ih p hp
    rw [groupByKey_cons] at hp
    rcases List.mem_cons.mp hp with hp | hp
    · subst hp
      exact ⟨e, _, rfl, rfl⟩
    · exact ih p hp

theorem groupByKey_keys_nodup {α κ : Type} [DecidableEq κ] (f : α → κ) :
    ∀ (l : List α), ((groupByKey f l).map Prod.fst).Nodup := by
  apply groupByKey_recursion f (fun l => ((groupByKey f l).map Prod.fst).Nodup)
  · simp [groupByKey, groupByKeyAux]
  · intro e es ih
    rw [groupByKey_cons]
    simp only [List.map_cons, List.nodup_cons]
    refine ⟨?_, ih⟩
    intro hmem
    rcases List.mem_map.mp hmem with ⟨p, hp, hkey⟩
    rcases (groupByKey_mem f _ p hp).2 with ⟨e2, he2mem, he2key⟩
    have he2es : e2 ∈ es ∧ ¬ f e2 = f e := by
      have := List.mem_filter.mp he2mem
      simpa using this
    exact he2es.2 (he2key.trans hkey)

theorem groupByKey_covers {α κ : Type} [DecidableEq κ] (f : α → κ) :
    ∀ (l : List α), ∀ x ∈ l, ∃ p ∈ groupByKey f l, x ∈ p.2 := by
  apply groupByKey_recursion f (fun l => ∀ x ∈ l, ∃ p ∈ groupByKey f l, x ∈ p.2)
  · intro x hx
    simp at hx
  · intro e es ih x hx
    rw [groupByKey_cons]
    by_cases hfx : f x = f e
    · refine ⟨(f e, e :: es.filter (fun y => decide (f y = f e))), List.mem_cons_self _ _, ?_⟩
      rcases List.mem_cons.mp hx with hx | hx
      · exact hx ▸ List.mem_cons_self _ _
      · exact List.mem_cons_of_mem e (List.mem_filter.mpr ⟨hx, by simp [hfx]⟩)
    · have hxe : x ≠ e := fun hc => hfx (hc ▸ rfl)
      have hxes : x ∈ es := (List.mem_cons.mp hx).resolve_left hxe
      have hxneg : x ∈ es.filter (fun y => !decide (f y = f e)) :=
        List.mem_filter.mpr ⟨hxes, by simp [hfx]⟩
      rcases ih x hxneg with ⟨p, hp, hxp⟩
      exact ⟨p, List.mem_cons_of_mem _ hp, hxp⟩

/-! ## mapRows lemmas -/

theorem mkRow_ok (env : JSEnv) (p : String × List NormEvent) (r : ProcessedRow)
    (h : mkRow env p = Except.ok r) :
    r.freq = p.2.length ∧
      ∃ e t, p.2.head? = some e ∧ e.tsMs = some t ∧
        r = { Source := (splitPipe p.1).getD 0 "", SourceName := (splitPipe p.1).getD 1 "",
              IP := (splitPipe p.1).getD 2 "", Service := (splitPipe p.1).getD 3 "",
              Target := (splitPipe p.1).getD 4 "",
              Time := convertToPST env t, freq := p.2.length } := by
  cases hh : p.2.head? with
  | none => simp [mkRow, hh] at h
  | some e =>
      cases ht : e.tsMs with
      | none => simp [mkRow, hh, ht] at h
      | some t =>
          simp only [mkRow, hh, ht, Except.ok.injEq] at h
          subst h
          exact ⟨rfl, e, t, rfl, ht, rfl⟩

theorem mkRow_error_msg (env : JSEnv) (p : String × List NormEvent) (m : String)
    (h : mkRow env p = Except.error m) : m = "Invalid time value" := by
  cases hh : p.2.head? with
  | none =>
      simp only [mkRow, hh, Except.error.injEq] at h
      exact h.symm
  | some e =>
      cases ht : e.tsMs with
      | none =>
          simp only [mkRow, hh, ht, Except.error.injEq] at h
          exact h.symm
      | some t => simp [mkRow, hh, ht] at h

theorem mapRows_ok_freqs (env : JSEnv) :
    ∀ (gs : List (String × List NormEvent)) (rs : List ProcessedRow),
      mapRows env gs = Except.ok rs →
      rs.map (fun r => r.freq) = gs.map (fun p => p.2.length) := by
  intro gs
  induction gs with
  | nil =>
      intro rs h
      simp [mapRows] at h
      subst h
      rfl
  | cons p ps ih =>
      intro rs h
      unfold mapRows at h
      cases hmk : mkRow env p with
      | error m => rw [hmk] at h; simp at h
      | ok r =>
          rw [hmk] at h
          cases hrest : mapRows env ps with
          | error m => rw [hrest] at h; simp at h
          | ok rs0 =>
              rw [hrest] at h
              simp only [Except.ok.injEq] at h
              subst h
              simp only [List.map_cons]
              rw [ih rs0 hrest, (mkRow_ok env p r hmk).1]

theorem mapRows_ok_forall (env : JSEnv) :
    ∀ (gs : List (String × List NormEvent)) (rs : List ProcessedRow),
      mapRows env gs = Except.ok rs → ∀ p ∈ gs, ∃ r, mkRow env p = Except.ok r := by
  intro gs
  induction gs with
  | nil => intro rs _ p hp; simp at hp
  | cons q qs ih =>
      intro rs h p hp
      unfold mapRows at h
      cases hmk : mkRow env q with
      | error m => rw [hmk] at h; simp at h
      | ok r =>
          rw [hmk] at h
          cases hrest : mapRows env qs with
          | error m => rw [hrest] at h; simp at h
          | ok rs0 =>
              rcases List.mem_cons.mp hp with hp | hp
              · exact ⟨r, hp ▸ hmk⟩
              · exact ih rs0 hrest p hp

theorem mapRows_error_msg (env : JSEnv) :
    ∀ (gs : List (String × List NormEvent)) (m : String),
      mapRows env gs = Except.error m → m = "Invalid time value" := by
  intro gs
  induction gs with
  | nil => intro m h; simp [mapRows] at h
  | cons p ps ih =>
      intro m h
      unfold mapRows at h
      cases hmk : mkRow env p with
      | error m2 =>
          rw [hmk] at h
          simp only [Except.error.injEq] at h
          exact h ▸ mkRow_error_msg env p m2 hmk
      | ok r =>
          rw [hmk] at h
          cases hrest : mapRows env ps with
          | error m2 =>
              rw [hrest] at h
              simp only [Except.error.injEq] at h
              exact h ▸ ih m2 hrest
          | ok rs0 => rw [hrest] at h; simp at h

/-! ## Key splitting: `key.split('|')` versus the grouping tuple -/

theorem pipeFree_not_mem {s : String} (h : pipeFree s) : '|' ∉ s.data := by
  intro hm
  rw [h] at hm
  exact hm

theorem splitPipeP_no_pipe : ∀ l : List Char, '|' ∉ l → splitPipeP l = (l, []) := by
  intro l
  induction l with
  | nil => intro _; rfl
  | cons c cs ih =>
      intro h
      have hc : ¬ c = '|' := fun hc => h (hc ▸ List.mem_cons_self c cs)
      have hcs : '|' ∉ cs := fun hm => h (List.mem_cons_of_mem c hm)
      simp [splitPipeP, hc, ih hcs]

theorem splitPipeP_append : ∀ (a : List Char), ∀ (r : List Char), '|' ∉ a →
    splitPipeP (a ++ '|' :: r) = (a, (splitPipeP r).1 :: (splitPipeP r).2) := by
  intro a
  induction a with
  | nil => intro r _; simp [splitPipeP]
  | cons c cs ih =>
      intro r h
      have hc : ¬ c = '|' := fun hc => h (hc ▸ List.mem_cons_self c cs)
      have hcs : '|' ∉ cs := fun hm => h (List.mem_cons_of_mem c hm)
      simp [splitPipeP, hc, ih r hcs]

theorem map_data_mk : ∀ xs : List (List Char), (xs.map String.mk).map String.data = xs
  | [] => rfl
  | a :: t => by
      simp only [List.map_cons]
      rw [map_data_mk t]

theorem unsplitP_splitPipeP : ∀ l : List Char, unsplitP (splitPipeP l) = l := by
  intro l
  induction l with
  | nil => rfl
  | cons c cs ih =>
      unfold unsplitP at ih ⊢
      by_cases hc : c = '|'
      · subst hc
        rw [show splitPipeP ('|' :: cs) = ([], (splitPipeP cs).1 :: (splitPipeP cs).2) by
              simp [splitPipeP]]
        simp only [List.map_cons, List.flatten_cons, List.nil_append, List.cons_append]
        rw [ih]
      · rw [show splitPipeP (c :: cs) = (c :: (splitPipeP cs).1, (splitPipeP cs).2) by
              simp [splitPipeP, hc]]
        simp only [List.cons_append]
        rw [ih]

theorem splitPipeParts_inj {l1 l2 : List Char}
    (h : splitPipeParts l1 = splitPipeParts l2) : l1 = l2 := by
  unfold splitPipeParts at h
  have hp : splitPipeP l1 = splitPipeP l2 := by
    injection h with h1 h2
    exact Prod.ext h1 h2
  have := unsplitP_splitPipeP l1
  rw [hp, unsplitP_splitPipeP l2] at this
  exact this.symm

theorem splitPipe_inj {s1 s2 : String} (h : splitPipe s1 = splitPipe s2) : s1 = s2 := by
  have h2 : splitPipeParts s1.data = splitPipeParts s2.data := by
    have hmap := congrArg (List.map String.data) h
    simp only [splitPipe] at hmap
    rw [map_data_mk, map_data_mk] at hmap
    exact hmap
  have h3 := splitPipeParts_inj h2
  cases s1
  cases s2
  exact congrArg String.mk h3

theorem splitPipe_append (a r : String) (h : pipeFree a) :
    splitPipe (a ++ ("|" ++ r)) = a :: splitPipe r := by
  unfold splitPipe splitPipeParts
  have hdata : (a ++ ("|" ++ r)).data = a.data ++ '|' :: r.data := by
    rw [String.data_append, String.data_append]
    rfl
  rw [hdata, splitPipeP_append a.data r.data (pipeFree_not_mem h)]
  rfl

theorem splitPipe_single (b : String) (h : pipeFree b) : splitPipe b = [b] := by
  unfold splitPipe splitPipeParts
  rw [splitPipeP_no_pipe b.data (pipeFree_not_mem h)]
  rfl

theorem splitPipe_compositeKey (e : NormEvent) (h : PipeFreeN e) :
    splitPipe (compositeKey e) =
      e.Source :: e.SourceName :: e.IP :: e.Service :: e.Target ::
        splitPipe e.time_group := by
  unfold compositeKey
  rw [splitPipe_append _ _ h.1, splitPipe_append _ _ h.2.1,
      splitPipe_append _ _ h.2.2.1, splitPipe_append _ _ h.2.2.2.1,
      splitPipe_append _ _ h.2.2.2.2]

theorem compositeKey_eq_iff {x e : NormEvent} (hx : PipeFreeN x) (he : PipeFreeN e) :
    compositeKey x = compositeKey e ↔ tupleOf x = tupleOf e := by
  constructor
  · intro h
    have hs := congrArg splitPipe h
    rw [splitPipe_compositeKey x hx, splitPipe_compositeKey e he] at hs
    injection hs with h1 hs
    injection hs with h2 hs
    injection hs with h3 hs
    injection hs with h4 hs
    injection hs with h5 hs
    have hb := splitPipe_inj hs
    unfold tupleOf
    rw [h1, h2, h3, h4, h5, hb]
  · intro h
    unfold tupleOf at h
    injection h with h1 h2 h3 h4 h5 h6
    unfold compositeKey
    rw [h1, h2, h3, h4, h5, h6]

/-! ## Pipeline plumbing lemmas -/

theorem normalizeEvent_pipeFree (env : JSEnv) (e : RawEvent) (h : PipeFreeEvent e) :
    PipeFreeN (normalizeEvent env e) := h

theorem filterByRange_subset (env : JSEnv) (events : List NormEvent)
    (range : Option DateRange) : ∀ x ∈ filterByRange env events range, x ∈ events := by
  intro x hx
  cases range with
  | none => exact hx
  | some r =>
      simp only [filterByRange] at hx
      split at hx
      · exact hx
      · exact (List.mem_filter.mp hx).1

theorem pipelineEvents_source (env : JSEnv) (data : List RawEvent)
    (range : Option DateRange) :
    ∀ x ∈ pipelineEvents env data range, ∃ y ∈ data, x = normalizeEvent env y := by
  intro x hx
  unfold pipelineEvents at hx
  have hx2 : x ∈ filterByRange env (data.map (normalizeEvent env)) range := by
    simpa [List.mem_insertionSort] using hx
  have hx3 := filterByRange_subset env _ range x hx2
  rcases List.mem_map.mp hx3 with ⟨y, hy, hxy⟩
  exact ⟨y, hy, hxy.symm⟩

theorem pipelineEvents_pipeFree (env : JSEnv) (data : List RawEvent)
    (range : Option DateRange) (hpf : ∀ e ∈ data, PipeFreeEvent e) :
    ∀ x ∈ pipelineEvents env data range, PipeFreeN x := by
  intro x hx
  rcases pipelineEvents_source env data range x hx with ⟨y, hy, hxy⟩
  exact hxy ▸ normalizeEvent_pipeFree env y (hpf y hy)

theorem pipelineEvents_sorted (env : JSEnv) (data : List RawEvent)
    (range : Option DateRange) : (pipelineEvents env data range).Sorted tsLe :=
  List.sorted_insertionSort tsLe _

theorem group_head_min (l : List NormEvent) (hs : l.Sorted tsLe) :
    ∀ p ∈ groupByKey tupleOf l, p.2 ≠ [] ∧ ∀ x ∈ p.2, tsLe p.2.headI x := by
  intro p hp
  have hfilt := (groupByKey_mem tupleOf l p hp).1
  rcases groupByKey_shape tupleOf l p hp with ⟨a, t, hshape, _⟩
  constructor
  · rw [hshape]
    simp
  · intro x hx
    have hsub : List.Sublist p.2 l := by
      rw [hfilt]
      exact List.filter_sublist l
    have hps : p.2.Pairwise tsLe := List.Pairwise.sublist hsub hs
    rw [hshape] at hx hps ⊢
    simp only [List.headI]
    rcases List.mem_cons.mp hx with hx | hx
    · exact hx ▸ tsLe_refl a
    · exact (List.pairwise_cons.mp hps).1 x hx

/-- The frequency rows computed by `processData`'s group map coincide, group by
group, with the spec-side rows keyed by the six-component tuple — provided no
field value contains the `'|'` delimiter. -/
theorem mapRows_eq_specRows (env : JSEnv) :
    ∀ l : List NormEvent, (∀ x ∈ l, PipeFreeN x) →
      ∀ rs, mapRows env (groupByKey compositeKey l) = Except.ok rs →
        rs = (groupByKey tupleOf l).map (specRow env) := by
  apply groupByKey_recursion compositeKey
    (fun l => (∀ x ∈ l, PipeFreeN x) → ∀ rs,
      mapRows env (groupByKey compositeKey l) = Except.ok rs →
        rs = (groupByKey tupleOf l).map (specRow env))
  · intro _ rs hok
    simp only [groupByKey, groupByKeyAux, List.length_nil, mapRows,
      Except.ok.injEq] at hok
    subst hok
    rfl
  · intro e es ih hpf rs hok
    have hpfe : PipeFreeN e := hpf e (List.mem_cons_self e es)
    have hiff : ∀ x ∈ es,
        (decide (tupleOf x = tupleOf e)) = (decide (compositeKey x = compositeKey e)) := by
      intro x hx
      have hpfx := hpf x (List.mem_cons_of_mem e hx)
      by_cases hck : compositeKey x = compositeKey e
      · simp [hck, (compositeKey_eq_iff hpfx hpfe).mp hck]
      · have hnt : ¬ tupleOf x = tupleOf e :=
          fun ht => hck ((compositeKey_eq_iff hpfx hpfe).mpr ht)
        simp [hck, hnt]
    have hfiltEq : es.filter (fun x => decide (tupleOf x = tupleOf e)) =
        es.filter (fun x => decide (compositeKey x = compositeKey e)) :=
      List.filter_congr hiff
    have hfiltNegEq : es.filter (fun x => !decide (tupleOf x = tupleOf e)) =
        es.filter (fun x => !decide (compositeKey x = compositeKey e)) :=
      List.filter_congr (fun x hx => by rw [hiff x hx])
    rw [groupByKey_cons] at hok
    rw [groupByKey_cons]
    unfold mapRows at hok
    cases hmk : mkRow env (compositeKey e,
        e :: es.filter (fun x => decide (compositeKey x = compositeKey e))) with
    | error m =>
        rw [hmk] at hok
        simp at hok
    | ok r =>
        rw [hmk] at hok
        cases hrest : mapRows env (groupByKey compositeKey
            (es.filter (fun x => !decide (compositeKey x = compositeKey e)))) with
        | error m =>
            rw [hrest] at hok
            simp at hok
        | ok rs0 =>
            rw [hrest] at hok
            simp only [Except.ok.injEq] at hok
            subst hok
            simp only [List.map_cons]
            congr 1
            · rcases mkRow_ok env _ r hmk with ⟨_, e2, t, hhead, hts, hrEq⟩
              simp only [List.head?_cons, Option.some.injEq] at hhead
              subst hhead
              rw [hrEq]
              unfold specRow
              simp only
              rw [splitPipe_compositeKey e hpfe]
              simp only [List.getD_cons_zero, List.getD_cons_succ, List.headI]
              rw [hfiltEq, hts]
              rfl
            · rw [hfiltNegEq]
              exact ih (fun x hx =>
                hpf x (List.mem_cons_of_mem e (List.mem_filter.mp hx).1)) rs0 hrest

/-! ## processData unpacking -/

theorem processData_ok (env : JSEnv) (data : List RawEvent) (range : Option DateRange)
    (rows : List ProcessedRow) (h : processData env data range = Except.ok rows) :
    ∃ rows0, mapRows env (groupByKey compositeKey (pipelineEvents env data range)) =
        Except.ok rows0 ∧ rows = List.insertionSort rowLe rows0 := by
  unfold processData at h
  cases hm : mapRows env (groupByKey compositeKey (pipelineEvents env data range)) with
  | error m =>
      rw [hm] at h
      simp at h
  | ok rows0 =>
      rw [hm] at h
      simp only [Except.ok.injEq] at h
      exact ⟨rows0, rfl, h.symm⟩

/-! ## Analytics accumulator lemmas -/

theorem anStep_ipMap (s : AnState) (row : ProcessedRow) :
    (anStep s row).ipMap =
      updateA row.IP (ipUpd row) ⟨row.IP, 0, 0, [], [], []⟩ s.ipMap := rfl

theorem anStep_sourceMap (s : AnState) (row : ProcessedRow) :
    (anStep s row).sourceMap =
      updateA (orUnknown row.Source) (sourceUpd row) ⟨0, 0⟩ s.sourceMap := rfl

theorem anStep_serviceMap (s : AnState) (row : ProcessedRow) :
    (anStep s row).serviceMap =
      updateA (orUnknown row.Service) (fun c => c + 1) 0 s.serviceMap := rfl

theorem anStep_targetMap (s : AnState) (row : ProcessedRow) :
    (anStep s row).targetMap =
      updateA (orUnknown row.Target) (fun f => f + row.freq) 0 s.targetMap := rfl

theorem updateA_ip_total (row : ProcessedRow) (k : String) (v0 : IpAcc)
    (hv0 : v0.totalFreq = 0) :
    ∀ m : List (String × IpAcc),
      ((updateA k (ipUpd row) v0 m).map (fun p => p.2.totalFreq)).sum
        = (m.map (fun p => p.2.totalFreq)).sum + row.freq := by
  intro m
  induction m with
  | nil => simp [updateA, ipUpd, hv0]
  | cons q m ih =>
      obtain ⟨k1, v⟩ := q
      by_cases hk : k1 = k
      · simp only [updateA, if_pos hk, List.map_cons, List.sum_cons, ipUpd]
        omega
      · simp only [updateA, if_neg hk, List.map_cons, List.sum_cons, ih]
        omega

theorem anFold_ip_total : ∀ (rows : List ProcessedRow) (s : AnState),
    ((List.foldl anStep s rows).ipMap.map (fun p => p.2.totalFreq)).sum
      = (s.ipMap.map (fun p => p.2.totalFreq)).sum + (rows.map (fun r => r.freq)).sum := by
  intro rows
  induction rows with
  | nil =>
      intro s
      simp
  | cons row rest ih =>
      intro s
      simp only [List.foldl_cons, List.map_cons, List.sum_cons]
      rw [ih (anStep s row), anStep_ipMap, updateA_ip_total row row.IP _ rfl]
      omega

theorem ipDistribution_perm (rows : List ProcessedRow) :
    (ipDistribution rows).Perm ((anFold rows).ipMap.map ipEntryOf) :=
  List.perm_insertionSort ipGe _

theorem ipDistribution_total (rows : List ProcessedRow) :
    ((ipDistribution rows).map (fun en => en.totalFreq)).sum
      = (rows.map (fun r => r.freq)).sum := by
  rw [((ipDistribution_perm rows).map (fun en => en.totalFreq)).sum_eq, List.map_map]
  have hcomp : ((fun en : IpEntry => en.totalFreq) ∘ ipEntryOf)
      = (fun p : String × IpAcc => p.2.totalFreq) := rfl
  rw [hcomp]
  have h := anFold_ip_total rows anInit
  simpa [anFold, anInit] using h

theorem updateA_keys_prop {V : Type} (P : String → Prop) (k : String) (f : V → V)
    (v0 : V) (hk : P k) :
    ∀ m : List (String × V), (∀ p ∈ m, P p.1) → ∀ p ∈ updateA k f v0 m, P p.1 := by
  intro m
  induction m with
  | nil =>
      intro _ p hp
      simp only [updateA, List.mem_singleton] at hp
      subst hp
      exact hk
  | cons q m ih =>
      obtain ⟨k1, v⟩ := q
      intro hm p hp
      by_cases hk1 : k1 = k
      · rw [updateA, if_pos hk1] at hp
        rcases List.mem_cons.mp hp with hp | hp
        · subst hp
          exact hm (k1, v) (List.mem_cons_self _ _)
        · exact hm p (List.mem_cons_of_mem _ hp)
      · rw [updateA, if_neg hk1] at hp
        rcases List.mem_cons.mp hp with hp | hp
        · subst hp
          exact hm (k1, v) (List.mem_cons_self _ _)
        · exact ih (fun q hq => hm q (List.mem_cons_of_mem _ hq)) p hp

theorem updateA_values_prop {V : Type} (Q : V → Prop) (k : String) (f : V → V)
    (v0 : V) (hf : ∀ v, Q (f v)) :
    ∀ m : List (String × V), (∀ p ∈ m, Q p.2) → ∀ p ∈ updateA k f v0 m, Q p.2 := by
  intro m
  induction m with
  | nil =>
      intro _ p hp
      simp only [updateA, List.mem_singleton] at hp
      subst hp
      exact hf v0
  | cons q m ih =>
      obtain ⟨k1, v⟩ := q
      intro hm p hp
      by_cases hk1 : k1 = k
      · rw [updateA, if_pos hk1] at hp
        rcases List.mem_cons.mp hp with hp | hp
        · subst hp
          exact hf v
        · exact hm p (List.mem_cons_of_mem _ hp)
      · rw [updateA, if_neg hk1] at hp
        rcases List.mem_cons.mp hp with hp | hp
        · subst hp
          exact hm (k1, v) (List.mem_cons_self _ _)
        · exact ih (fun q hq => hm q (List.mem_cons_of_mem _ hq)) p hp

theorem updateA_key_present {V : Type} (k : String) (f : V → V) (v0 : V) :
    ∀ m : List (String × V), k ∈ (updateA k f v0 m).map Prod.fst := by
  intro m
  induction m with
  | nil => simp [updateA]
  | cons q m ih =>
      obtain ⟨k1, v⟩ := q
      by_cases hk1 : k1 = k
      · rw [updateA, if_pos hk1]
        simp [hk1]
      · rw [updateA, if_neg hk1]
        simpa using Or.inr (by simpa using ih)

theorem updateA_key_preserved {V : Type} (k : String) (f : V → V) (v0 : V)
    (k2 : String) :
    ∀ m : List (String × V), k2 ∈ m.map Prod.fst →
      k2 ∈ (updateA k f v0 m).map Prod.fst := by
  intro m
  induction m with
  | nil => simp
  | cons q m ih =>
      obtain ⟨k1, v⟩ := q
      intro hm
      rcases List.mem_cons.mp ((List.map_cons Prod.fst (k1, v) m) ▸ hm) with h | h
      · by_cases hk1 : k1 = k
        · rw [updateA, if_pos hk1]
          simpa using Or.inl h
        · rw [updateA, if_neg hk1]
          simpa using Or.inl h
      · by_cases hk1 : k1 = k
        · rw [updateA, if_pos hk1]
          simpa using Or.inr h
        · rw [updateA, if_neg hk1]
          simpa using Or.inr (by simpa using ih h)

theorem orUnknown_ne (s : String) : orUnknown s ≠ "" := by
  unfold orUnknown
  split
  · intro h
    exact absurd h (by decide)
  · assumption

theorem addElem_ne_nil (x : String) (l : List String) : addElem x l ≠ [] := by
  unfold addElem
  split
  · exact List.ne_nil_of_mem (by assumption)
  · simp

theorem anFold_source_keys_ne : ∀ (rows : List ProcessedRow) (s : AnState),
    (∀ p ∈ s.sourceMap, p.1 ≠ "") →
    ∀ p ∈ (List.foldl anStep s rows).sourceMap, p.1 ≠ "" := by
  intro rows
  induction rows with
  | nil => intro s hs; exact hs
  | cons row rest ih =>
      intro s hs
      simp only [List.foldl_cons]
      apply ih
      rw [anStep_sourceMap]
      exact updateA_keys_prop (fun k => k ≠ "") (orUnknown row.Source) (sourceUpd row)
        ⟨0, 0⟩ (orUnknown_ne row.Source) s.sourceMap hs

theorem anFold_service_keys_ne : ∀ (rows : List ProcessedRow) (s : AnState),
    (∀ p ∈ s.serviceMap, p.1 ≠ "") →
    ∀ p ∈ (List.foldl anStep s rows).serviceMap, p.1 ≠ "" := by
  intro rows
  induction rows with
  | nil => intro s hs; exact hs
  | cons row rest ih =>
      intro s hs
      simp only [List.foldl_cons]
      apply ih
      rw [anStep_serviceMap]
      exact updateA_keys_prop (fun k => k ≠ "") (orUnknown row.Service) (fun c => c + 1)
        0 (orUnknown_ne row.Service) s.serviceMap hs

theorem anFold_target_keys_ne : ∀ (rows : List ProcessedRow) (s : AnState),
    (∀ p ∈ s.targetMap, p.1 ≠ "") →
    ∀ p ∈ (List.foldl anStep s rows).targetMap, p.1 ≠ "" := by
  intro rows
  induction rows with
  | nil => intro s hs; exact hs
  | cons row rest ih =>
      intro s hs
      simp only [List.foldl_cons]
      apply ih
      rw [anStep_targetMap]
      exact updateA_keys_prop (fun k => k ≠ "") (orUnknown row.Target)
        (fun f => f + row.freq) 0 (orUnknown_ne row.Target) s.targetMap hs

theorem anFold_ip_targets : ∀ (rows : List ProcessedRow) (s : AnState),
    (∀ p ∈ s.ipMap, p.2.targets ≠ []) →
    ∀ p ∈ (List.foldl anStep s rows).ipMap, p.2.targets ≠ [] := by
  intro rows
  induction rows with
  | nil => intro s hs; exact hs
  | cons row rest ih =>
      intro s hs
      simp only [List.foldl_cons]
      apply ih
      rw [anStep_ipMap]
      exact updateA_values_prop (fun v => v.targets ≠ []) row.IP (ipUpd row)
        ⟨row.IP, 0, 0, [], [], []⟩
        (fun v => addElem_ne_nil row.Target v.targets) s.ipMap hs

theorem anFold_ip_key_preserved : ∀ (rows : List ProcessedRow) (s : AnState)
    (k : String), k ∈ s.ipMap.map Prod.fst →
    k ∈ (List.foldl anStep s rows).ipMap.map Prod.fst := by
  intro rows
  induction rows with
  | nil => intro s k hk; exact hk
  | cons row rest ih =>
      intro s k hk
      simp only [List.foldl_cons]
      apply ih
      rw [anStep_ipMap]
      exact updateA_key_preserved row.IP (ipUpd row) ⟨row.IP, 0, 0, [], [], []⟩ k s.ipMap hk

theorem anFold_ip_key_present : ∀ (rows : List ProcessedRow) (s : AnState)
    (row : ProcessedRow), row ∈ rows →
    row.IP ∈ (List.foldl anStep s rows).ipMap.map Prod.fst := by
  intro rows
  induction rows with
  | nil =>
      intro s row hrow
      simp at hrow
  | cons q rest ih =>
      intro s row hrow
      rcases List.mem_cons.mp hrow with h | h
      · subst h
        simp only [List.foldl_cons]
        apply anFold_ip_key_preserved
        rw [anStep_ipMap]
        exact updateA_key_present row.IP (ipUpd row) ⟨row.IP, 0, 0, [], [], []⟩ s.ipMap
      · exact ih (anStep s q) row h

/-! ## Claim theorems -/

/-- C2 (confirmed): for every input event list and optional date range, the sum
of `freq` over all ProcessedRows returned by `processData` equals the number of
events that passed the date filter. -/
theorem c2_freq_conservation (env : JSEnv) (data : List RawEvent)
    (range : Option DateRange) (rows : List ProcessedRow)
    (hok : processData env data range = Except.ok rows) :
    (rows.map (fun r => r.freq)).sum
      = (filterByRange env (data.map (normalizeEvent env)) range).length := by
  rcases processData_ok env data range rows hok with ⟨rows0, hmap, hsort⟩
  have hperm : rows.Perm rows0 := hsort ▸ List.perm_insertionSort rowLe rows0
  rw [(hperm.map (fun r => r.freq)).sum_eq, mapRows_ok_freqs env _ rows0 hmap,
    groupByKey_sum_lengths compositeKey (pipelineEvents env data range)]
  exact (List.perm_insertionSort tsLe _).length_eq

/-- Witness for C2 at a concrete input: three events, two of which share every
field and timestamp, filtered to a concrete day range. -/
theorem c2_witness :
    (([⟨"s1", "n", "i", "v", "t", "HMS:5 PST", 2⟩] : List ProcessedRow).map
        (fun r => r.freq)).sum
      = (filterByRange testEnv
          (([⟨"5", "s1", "n", "i", "v", "t"⟩, ⟨"5", "s1", "n", "i", "v", "t"⟩,
             ⟨"3", "s0", "n", "i", "v", "t"⟩] : List RawEvent).map
            (normalizeEvent testEnv))
          (some ⟨"4", "9"⟩)).length :=
  c2_freq_conservation testEnv
    [⟨"5", "s1", "n", "i", "v", "t"⟩, ⟨"5", "s1", "n", "i", "v", "t"⟩,
     ⟨"3", "s0", "n", "i", "v", "t"⟩]
    (some ⟨"4", "9"⟩) [⟨"s1", "n", "i", "v", "t", "HMS:5 PST", 2⟩] (by rfl)

/-- C7 (confirmed): the list returned by `processData` is ordered ascending by
`Source` (JavaScript lexicographic string order) and, within equal `Source`,
descending by `freq` — the canonical default order. -/
theorem c7_default_order (env : JSEnv) (data : List RawEvent)
    (range : Option DateRange) (rows : List ProcessedRow)
    (hok : processData env data range = Except.ok rows) :
    rows.Pairwise (fun a b =>
      strLt a.Source b.Source = true ∨ (a.Source = b.Source ∧ b.freq ≤ a.freq)) := by
  rcases processData_ok env data range rows hok with ⟨rows0, _, hsort⟩
  subst hsort
  have hs := List.sorted_insertionSort rowLe rows0
  refine List.Pairwise.imp ?_ hs
  intro a b hab
  unfold rowLe rowLeB at hab
  simp only [Bool.or_eq_true, Bool.and_eq_true, decide_eq_true_eq] at hab
  exact hab

/-- Witness for C7 at a concrete input with two distinct sources. -/
theorem c7_witness :
    ([⟨"s0", "n", "i", "v", "t", "HMS:3 PST", 1⟩,
      ⟨"s1", "n", "i", "v", "t", "HMS:5 PST", 2⟩] : List ProcessedRow).Pairwise
      (fun a b =>
        strLt a.Source b.Source = true ∨ (a.Source = b.Source ∧ b.freq ≤ a.freq)) :=
  c7_default_order testEnv
    [⟨"5", "s1", "n", "i", "v", "t"⟩, ⟨"5", "s1", "n", "i", "v", "t"⟩,
     ⟨"3", "s0", "n", "i", "v", "t"⟩] none
    [⟨"s0", "n", "i", "v", "t", "HMS:3 PST", 1⟩,
     ⟨"s1", "n", "i", "v", "t", "HMS:5 PST", 2⟩] (by rfl)

/-- C9 (confirmed): the derived `time_group` bucket is a pure, deterministic
function of the `Timestamp` string alone — two events with equal timestamp
strings get equal buckets, and recomputation is stable. -/
theorem c9_time_bucket_pure (env : JSEnv) (e1 e2 : RawEvent)
    (h : e1.Timestamp = e2.Timestamp) :
    (normalizeEvent env e1).time_group = timeBucketOf env e1.Timestamp ∧
    (normalizeEvent env e1).time_group = (normalizeEvent env e2).time_group := by
  constructor
  · rfl
  · show timeBucketOf env e1.Timestamp = timeBucketOf env e2.Timestamp
    rw [h]

/-- Witness for C9: two events sharing a timestamp but nothing else. -/
theorem c9_witness :
    (normalizeEvent testEnv ⟨"5", "a", "b", "c", "d", "e"⟩).time_group
      = timeBucketOf testEnv "5" ∧
    (normalizeEvent testEnv ⟨"5", "a", "b", "c", "d", "e"⟩).time_group
      = (normalizeEvent testEnv ⟨"5", "x", "y", "z", "w", "q"⟩).time_group :=
  c9_time_bucket_pure testEnv ⟨"5", "a", "b", "c", "d", "e"⟩
    ⟨"5", "x", "y", "z", "w", "q"⟩ rfl

/-- C10 (confirmed): every entry of `ipDistribution` (in both dashboard
revisions) has a nonempty targets set, so `avgEventsPerTarget =
round(totalFreq / uniqueTargets)` never divides by zero. -/
theorem c10_avg_safe (rows : List ProcessedRow) (en : IpEntry) :
    (en ∈ ipDistribution rows →
      1 ≤ en.uniqueTargets ∧ en.avgEventsPerTarget = jsRound en.totalFreq en.uniqueTargets) ∧
    (en ∈ ipDistributionDash rows →
      1 ≤ en.uniqueTargets ∧ en.avgEventsPerTarget = jsRound en.totalFreq en.uniqueTargets) := by
  have main : en ∈ ipDistribution rows →
      1 ≤ en.uniqueTargets ∧ en.avgEventsPerTarget = jsRound en.totalFreq en.uniqueTargets := by
    intro hmem
    have hmem2 : en ∈ (anFold rows).ipMap.map ipEntryOf :=
      (ipDistribution_perm rows).mem_iff.mp hmem
    rcases List.mem_map.mp hmem2 with ⟨p, hp, hpe⟩
    have htar : p.2.targets ≠ [] :=
      anFold_ip_targets rows anInit (by intro q hq; simp [anInit] at hq) p hp
    constructor
    · rw [← hpe]
      show 1 ≤ p.2.targets.length
      cases hl : p.2.targets with
      | nil => exact absurd hl htar
      | cons a t => simp
    · rw [← hpe]
      rfl
  exact ⟨main, fun h => main (List.mem_of_mem_take h)⟩

/-- Witness for C10: a single row with an empty `Target` still yields a
one-element targets set. -/
theorem c10_witness :
    1 ≤ (ipEntryOf ("", ⟨"", 1, 2, [], ["v"], [""]⟩)).uniqueTargets ∧
    (ipEntryOf ("", ⟨"", 1, 2, [], ["v"], [""]⟩)).avgEventsPerTarget
      = jsRound (ipEntryOf ("", ⟨"", 1, 2, [], ["v"], [""]⟩)).totalFreq
          (ipEntryOf ("", ⟨"", 1, 2, [], ["v"], [""]⟩)).uniqueTargets :=
  (c10_avg_safe [⟨"s", "", "", "v", "", "T", 2⟩]
    (ipEntryOf ("", ⟨"", 1, 2, [], ["v"], [""]⟩))).1 (by decide)

/-- C3 (confirmed): the date filter returns the input unchanged when the range
is absent or either bound empty; otherwise (with parseable bounds) it keeps
exactly the events whose timestamp lies between the parsed start date and the
end date widened by `setHours(23, 59, 59, 999)` — an event at exactly the
widened endpoint is kept, one millisecond later is dropped. -/
theorem c3_date_filter (env : JSEnv) (events : List NormEvent) (r : DateRange)
    (sm em : Int) (hs : env.parseDate r.startDate = some sm)
    (he : env.parseDate r.endDate = some em)
    (hs2 : r.startDate ≠ "") (he2 : r.endDate ≠ "") :
    filterByRange env events none = events ∧
    (∀ r2 : DateRange, r2.startDate = "" ∨ r2.endDate = "" →
      filterByRange env events (some r2) = events) ∧
    filterByRange env events (some r) = events.filter (fun e =>
      match e.tsMs with
      | some t => decide (sm ≤ t) && decide (t ≤ env.endOfDay em)
      | none => false) ∧
    (∀ e ∈ events, e.tsMs = some (env.endOfDay em) → sm ≤ env.endOfDay em →
      e ∈ filterByRange env events (some r)) ∧
    (∀ e ∈ events, e.tsMs = some (env.endOfDay em + 1) →
      e ∉ filterByRange env events (some r)) := by
  have hcond : ¬ (r.startDate = "" ∨ r.endDate = "") := by
    intro hc
    rcases hc with hc | hc
    · exact hs2 hc
    · exact he2 hc
  have hfilter : filterByRange env events (some r) = events.filter (fun e =>
      match e.tsMs with
      | some t => decide (sm ≤ t) && decide (t ≤ env.endOfDay em)
      | none => false) := by
    show (if r.startDate = "" ∨ r.endDate = "" then events
        else events.filter (inRange env r)) = _
    rw [if_neg hcond]
    apply List.filter_congr
    intro e _
    unfold inRange
    rw [hs, he]
    cases e.tsMs <;> rfl
  refine ⟨rfl, ?_, hfilter, ?_, ?_⟩
  · intro r2 h2
    show (if r2.startDate = "" ∨ r2.endDate = "" then events
        else events.filter (inRange env r2)) = events
    rw [if_pos h2]
  · intro e hmem hts hle
    rw [hfilter]
    apply List.mem_filter.mpr
    refine ⟨hmem, ?_⟩
    rw [hts]
    simp [hle]
  · intro e hmem hts hin
    rw [hfilter] at hin
    have := (List.mem_filter.mp hin).2
    rw [hts] at this
    simp only [Bool.and_eq_true, decide_eq_true_eq] at this
    omega

/-- Witness for C3 at a concrete range: start `"1"`, end `"9"` widened to
`86400008`; an event at the widened endpoint is kept, one at `+1 ms` is not. -/
theorem c3_witness :
    filterByRange testEnv
        [(⟨"s", "n", "i", "v", "t", some 86400008, "b"⟩ : NormEvent),
         ⟨"s", "n", "i", "v", "t", some 86400009, "b"⟩]
        (some ⟨"1", "9"⟩)
      = [⟨"s", "n", "i", "v", "t", some 86400008, "b"⟩] := by
  have h := c3_date_filter testEnv
    [⟨"s", "n", "i", "v", "t", some 86400008, "b"⟩,
     ⟨"s", "n", "i", "v", "t", some 86400009, "b"⟩]
    ⟨"1", "9"⟩ 1 9 rfl rfl (by decide) (by decide)
  rw [h.2.2.1]
  decide

/-- C8 (confirmed): the view keeps exactly the rows that match the selected
source IP exactly (on the `IP` field only) and contain the search term
case-insensitively in at least one of the five fields; an empty term (or empty
selection) matches every row. -/
theorem c8_view_filter (selectedSource searchTerm : String)
    (data : List ProcessedRow) :
    filterResults selectedSource searchTerm data = data.filter (fun row =>
      (decide (selectedSource = "") || decide (row.IP = selectedSource)) &&
      (decide (searchTerm = "") || rowMatches searchTerm row)) := by
  unfold filterResults
  by_cases hsel : selectedSource = ""
  · rw [if_pos hsel]
    by_cases hterm : searchTerm = ""
    · rw [if_pos hterm]
      simp [hsel, hterm]
    · rw [if_neg hterm]
      simp [hsel, hterm]
  · rw [if_neg hsel]
    by_cases hterm : searchTerm = ""
    · rw [if_pos hterm]
      simp [hsel, hterm]
    · rw [if_neg hterm]
      rw [List.filter_filter]
      apply List.filter_congr
      intro row _
      simp [hsel, hterm, Bool.and_comm]

/-- C5 counterexample: with six distinct IPs of one `freq` each, the
`ipDistribution` of `CrowdStrikeDashboard.tsx` (which slices to the top five
entries) sums to 5 while the row freq total is 6 — so "the sum of totalFreq
over all entries of the ipDistribution aggregate equals the sum of freq" fails
for that engine. -/
theorem c5_counterexample :
    ¬ (((ipDistributionDash
          [⟨"s", "n", "i1", "v", "t", "T", 1⟩, ⟨"s", "n", "i2", "v", "t", "T", 1⟩,
           ⟨"s", "n", "i3", "v", "t", "T", 1⟩, ⟨"s", "n", "i4", "v", "t", "T", 1⟩,
           ⟨"s", "n", "i5", "v", "t", "T", 1⟩, ⟨"s", "n", "i6", "v", "t", "T", 1⟩]).map
            (fun en => en.totalFreq)).sum
        = (([⟨"s", "n", "i1", "v", "t", "T", 1⟩, ⟨"s", "n", "i2", "v", "t", "T", 1⟩,
             ⟨"s", "n", "i3", "v", "t", "T", 1⟩, ⟨"s", "n", "i4", "v", "t", "T", 1⟩,
             ⟨"s", "n", "i5", "v", "t", "T", 1⟩, ⟨"s", "n", "i6", "v", "t", "T", 1⟩] :
              List ProcessedRow).map (fun r => r.freq)).sum) := by
  decide

/-- C5 amended (proved): the frequency-conservation invariant holds exactly for
the unsliced `ipDistribution` engine; for the `CrowdStrikeDashboard.tsx` variant
the top-5 slice can only undercount, with equality whenever at most five
distinct IPs occur. -/
theorem c5_amended_totals (rows : List ProcessedRow) :
    ((ipDistribution rows).map (fun en => en.totalFreq)).sum
        = (rows.map (fun r => r.freq)).sum ∧
    ((ipDistributionDash rows).map (fun en => en.totalFreq)).sum
        ≤ (rows.map (fun r => r.freq)).sum ∧
    ((anFold rows).ipMap.length ≤ 5 →
      ipDistributionDash rows = ipDistribution rows) := by
  refine ⟨ipDistribution_total rows, ?_, ?_⟩
  · rw [← ipDistribution_total rows]
    unfold ipDistributionDash
    rw [List.map_take]
    have hsplit := ((ipDistribution rows).map (fun en => en.totalFreq)).sum_take_add_sum_drop 5
    omega
  · intro hlen
    unfold ipDistributionDash
    apply List.take_of_length_le
    unfold ipDistribution
    rw [List.length_insertionSort, List.length_map]
    exact hlen

/-- Witness for C5-amended at a single-row input (one distinct IP, so the sliced
and unsliced engines agree). -/
theorem c5_witness :
    ((ipDistribution [⟨"s", "n", "i", "v", "t", "T", 3⟩]).map
        (fun en => en.totalFreq)).sum
      = (([⟨"s", "n", "i", "v", "t", "T", 3⟩] : List ProcessedRow).map
          (fun r => r.freq)).sum ∧
    ipDistributionDash [⟨"s", "n", "i", "v", "t", "T", 3⟩]
      = ipDistribution [⟨"s", "n", "i", "v", "t", "T", 3⟩] :=
  ⟨(c5_amended_totals [⟨"s", "n", "i", "v", "t", "T", 3⟩]).1,
   (c5_amended_totals [⟨"s", "n", "i", "v", "t", "T", 3⟩]).2.2 (by decide)⟩

/-- C6 counterexample: a row with an empty `IP` surfaces in the `ipDistribution`
aggregate under the empty string, not under the `"Unknown"` sentinel — so "any
absent/empty field value is normalized to Unknown in the analytics aggregates"
fails for the `IP` field. -/
theorem c6_counterexample :
    (ipDistribution [⟨"s", "", "", "svc", "t", "T", 2⟩]).map (fun en => en.ip)
        = [""] ∧
    ("" : String) ≠ "Unknown" := by
  constructor
  · rfl
  · decide

/-- C6 amended (proved): empty `Source`, `Service` and `Target` are normalized
to the `"Unknown"` sentinel in the analytics accumulators (their keys are never
the empty string), but `IP` is **not** normalized — each row is filed under its
literal IP value, empty string included — while the frequency table emitted by
`processData` preserves empty field values verbatim. -/
theorem c6_amended_normalization (rows : List ProcessedRow) :
    (∀ p ∈ (anFold rows).sourceMap, p.1 ≠ "") ∧
    (∀ p ∈ (anFold rows).serviceMap, p.1 ≠ "") ∧
    (∀ p ∈ (anFold rows).targetMap, p.1 ≠ "") ∧
    (∀ row ∈ rows, row.IP ∈ (anFold rows).ipMap.map Prod.fst) ∧
    (∀ (env : JSEnv) (e : RawEvent) (t : Int), PipeFreeEvent e →
      env.parseDate e.Timestamp = some t →
      processData env [e] none = Except.ok
        [{ Source := e.Source, SourceName := e.SourceName, IP := e.IP,
           Service := e.Service, Target := e.Target,
           Time := convertToPST env t, freq := 1 }]) := by
  refine ⟨?_, ?_, ?_, ?_, ?_⟩
  · exact anFold_source_keys_ne rows anInit (by intro p hp; simp [anInit] at hp)
  · exact anFold_service_keys_ne rows anInit (by intro p hp; simp [anInit] at hp)
  · exact anFold_target_keys_ne rows anInit (by intro p hp; simp [anInit] at hp)
  · intro row hrow
    exact anFold_ip_key_present rows anInit row hrow
  · intro env e t hpf hparse
    have hne : (normalizeEvent env e).tsMs = some t := by
      simp [normalizeEvent, hparse]
    have hsplit := splitPipe_compositeKey (normalizeEvent env e)
      (normalizeEvent_pipeFree env e hpf)
    have hmk : mkRow env (compositeKey (normalizeEvent env e), [normalizeEvent env e])
        = Except.ok
          { Source := e.Source, SourceName := e.SourceName, IP := e.IP,
            Service := e.Service, Target := e.Target,
            Time := convertToPST env t, freq := 1 } := by
      simp only [mkRow, List.head?_cons, hne, hsplit, List.getD_cons_zero,
        List.getD_cons_succ, List.length_cons, List.length_nil]
      rfl
    have hgrp : groupByKey compositeKey (pipelineEvents env [e] none)
        = [(compositeKey (normalizeEvent env e), [normalizeEvent env e])] := rfl
    have hmap : mapRows env (groupByKey compositeKey (pipelineEvents env [e] none))
        = Except.ok
          [{ Source := e.Source, SourceName := e.SourceName, IP := e.IP,
             Service := e.Service, Target := e.Target,
             Time := convertToPST env t, freq := 1 }] := by
      rw [hgrp]
      simp only [mapRows, hmk]
    unfold processData
    rw [hmap]
    rfl

/-- Witness for C6-amended: a row whose five tuple fields are all empty — the
source accumulator keys avoid the empty string, and the frequency table keeps
the empty fields verbatim. -/
theorem c6_witness :
    (∀ p ∈ (anFold [(⟨"", "", "", "", "", "T", 1⟩ : ProcessedRow)]).sourceMap,
      p.1 ≠ "") ∧
    processData testEnv [⟨"7", "", "", "", "", ""⟩] none = Except.ok
      [{ Source := "", SourceName := "", IP := "", Service := "", Target := "",
         Time := convertToPST testEnv 7, freq := 1 }] :=
  ⟨(c6_amended_normalization [⟨"", "", "", "", "", "T", 1⟩]).1,
   (c6_amended_normalization [⟨"", "", "", "", "", "T", 1⟩]).2.2.2.2 testEnv
     ⟨"7", "", "", "", "", ""⟩ 7 (by decide) rfl⟩

/-- C1 counterexample: a `'|'` inside `Source` defeats the `key.split('|')`
round trip — the single event with `Source = "a|b"` (and otherwise empty
fields) comes back as a row with `Source = "a"` and `SourceName = "b"`, so the
tuple fields are not copied verbatim. -/
theorem c1_counterexample :
    processData testEnv [⟨"0", "a|b", "", "", "", ""⟩] none
      = Except.ok [⟨"a", "b", "", "", "", "HMS:0 PST", 1⟩] ∧
    ("a" : String) ≠ "a|b" := by
  constructor
  · rfl
  · decide

/-- C1 amended (proved): provided no field value contains the `'|'` key
delimiter and aggregation succeeds, `processData` returns (up to the final
ordering pass) exactly one row per distinct
`(Source, SourceName, IP, Service, Target, timeBucket)` tuple of the filtered
events — tuple fields copied verbatim, `freq` the group size, `Time` rendered
from the group's chronologically earliest event — and no two rows share a
composite key. -/
theorem c1_amended_grouping (env : JSEnv) (data : List RawEvent)
    (range : Option DateRange) (rows : List ProcessedRow)
    (hpf : ∀ e ∈ data, PipeFreeEvent e)
    (hok : processData env data range = Except.ok rows) :
    rows.Perm ((groupByKey tupleOf (pipelineEvents env data range)).map (specRow env)) ∧
    ((groupByKey tupleOf (pipelineEvents env data range)).map Prod.fst).Nodup ∧
    (∀ p ∈ groupByKey tupleOf (pipelineEvents env data range),
      p.2 = (pipelineEvents env data range).filter (fun x => decide (tupleOf x = p.1)) ∧
      p.2 ≠ [] ∧ ∀ x ∈ p.2, tsLe p.2.headI x) := by
  rcases processData_ok env data range rows hok with ⟨rows0, hmap, hsort⟩
  have hpfl := pipelineEvents_pipeFree env data range hpf
  have hrows0 := mapRows_eq_specRows env (pipelineEvents env data range) hpfl rows0 hmap
  refine ⟨?_, groupByKey_keys_nodup tupleOf _, ?_⟩
  · subst hsort
    exact (List.perm_insertionSort rowLe rows0).trans
      (by rw [hrows0])
  · intro p hp
    refine ⟨(groupByKey_mem tupleOf _ p hp).1, ?_⟩
    exact group_head_min _ (pipelineEvents_sorted env data range) p hp

/-- Witness for C1-amended: three pipe-free events, two sharing the full tuple,
produce rows in bijection with the two distinct tuples. -/
theorem c1_witness :
    ([⟨"s0", "n", "i", "v", "t", "HMS:3 PST", 1⟩,
      ⟨"s1", "n", "i", "v", "t", "HMS:5 PST", 2⟩] : List ProcessedRow).Perm
      ((groupByKey tupleOf (pipelineEvents testEnv
          [⟨"5", "s1", "n", "i", "v", "t"⟩, ⟨"5", "s1", "n", "i", "v", "t"⟩,
           ⟨"3", "s0", "n", "i", "v", "t"⟩] none)).map (specRow testEnv)) :=
  (c1_amended_grouping testEnv
    [⟨"5", "s1", "n", "i", "v", "t"⟩, ⟨"5", "s1", "n", "i", "v", "t"⟩,
     ⟨"3", "s0", "n", "i", "v", "t"⟩] none
    [⟨"s0", "n", "i", "v", "t", "HMS:3 PST", 1⟩,
     ⟨"s1", "n", "i", "v", "t", "HMS:5 PST", 2⟩]
    (by decide) (by rfl)).1

/-- C4 counterexample: one event with an unparseable timestamp — the derived
bucket does collapse to `"Invalid Date"`, but `processData` then **fails the
whole batch** (the `toISOString` call on the Invalid Date throws, surfacing as
the wrapped data-processing error) instead of keeping the row in a complete
result set. -/
theorem c4_counterexample :
    (normalizeEvent testEnv ⟨"x", "a", "b", "c", "d", "e"⟩).time_group
        = "Invalid Date" ∧
    processData testEnv [⟨"x", "a", "b", "c", "d", "e"⟩] none
      = Except.error "Data processing failed: Invalid time value" := by
  constructor
  · rfl
  · rfl

/-- C4 amended (proved): with no active date range, an event whose Timestamp
fails to parse has its bucket collapse to `"Invalid Date"` and makes the whole
`processData` call return the wrapped data-processing error — the batch fails
rather than degrading to a complete row set (hypotheses: the host's `HH:MM`
rendering never equals the `"Invalid Date"` marker, and fields are pipe-free so
distinct buckets cannot collide inside one composite key). -/
theorem c4_amended_invalid_timestamp (env : JSEnv) (data : List RawEvent)
    (bad : RawEvent)
    (henv : ∀ t, env.localHM t ≠ "Invalid Date")
    (hpf : ∀ e ∈ data, PipeFreeEvent e)
    (hbad : bad ∈ data) (hparse : env.parseDate bad.Timestamp = none) :
    (normalizeEvent env bad).time_group = "Invalid Date" ∧
    processData env data none
      = Except.error "Data processing failed: Invalid time value" := by
  have hnb_bucket : (normalizeEvent env bad).time_group = "Invalid Date" := by
    simp [normalizeEvent, timeBucketOf, hparse]
  refine ⟨hnb_bucket, ?_⟩
  unfold processData
  cases hm : mapRows env (groupByKey compositeKey (pipelineEvents env data none)) with
  | error m =>
      rw [mapRows_error_msg env _ m hm]
      rfl
  | ok rows0 =>
      exfalso
      have hnb_mem : normalizeEvent env bad ∈ pipelineEvents env data none := by
        unfold pipelineEvents
        exact (List.mem_insertionSort tsLe).mpr (List.mem_map_of_mem _ hbad)
      rcases groupByKey_covers compositeKey _ (normalizeEvent env bad) hnb_mem with
        ⟨p, hp, hnbp⟩
      rcases mapRows_ok_forall env _ rows0 hm p hp with ⟨r, hr⟩
      rcases mkRow_ok env p r hr with ⟨_, e2, t, hhead, hts, _⟩
      have hkeys := (groupByKey_mem compositeKey _ p hp).1
      have he2mem : e2 ∈ p.2 := by
        cases hsh : p.2 with
        | nil =>
            rw [hsh] at hhead
            simp at hhead
        | cons a tl =>
            rw [hsh] at hhead
            simp only [List.head?_cons, Option.some.injEq] at hhead
            subst hhead
            exact List.mem_cons_self _ _
      have hck_nb : compositeKey (normalizeEvent env bad) = p.1 := by
        rw [hkeys] at hnbp
        have := (List.mem_filter.mp hnbp).2
        simpa using this
      have hck_e2 : compositeKey e2 = p.1 := by
        rw [hkeys] at he2mem
        have := (List.mem_filter.mp he2mem).2
        simpa using this
      have he2l : e2 ∈ pipelineEvents env data none := by
        rw [hkeys] at he2mem
        exact (List.mem_filter.mp he2mem).1
      have hpfe2 : PipeFreeN e2 := pipelineEvents_pipeFree env data none hpf e2 he2l
      have hpfnb : PipeFreeN (normalizeEvent env bad) :=
        normalizeEvent_pipeFree env bad (hpf bad hbad)
      have htup : tupleOf e2 = tupleOf (normalizeEvent env bad) :=
        (compositeKey_eq_iff hpfe2 hpfnb).mp (hck_e2.trans hck_nb.symm)
      have hbuckets : e2.time_group = (normalizeEvent env bad).time_group := by
        have := congrArg GroupKey.bucket htup
        simpa [tupleOf] using this
      rcases pipelineEvents_source env data none e2 he2l with ⟨y, hy, he2y⟩
      subst he2y
      have hyts : env.parseDate y.Timestamp = some t := hts
      have : (normalizeEvent env y).time_group = env.localHM t := by
        simp [normalizeEvent, timeBucketOf, hyts]
      rw [this, hnb_bucket] at hbuckets
      exact henv t hbuckets

/-- Witness for C4-amended: a two-event batch (one valid, one garbage
timestamp) under an environment whose bucket rendering is constant. -/
theorem c4_witness :
    (normalizeEvent testEnv2 ⟨"x", "a", "b", "c", "d", "e"⟩).time_group
        = "Invalid Date" ∧
    processData testEnv2
        [⟨"5", "s", "n", "i", "v", "t"⟩, ⟨"x", "a", "b", "c", "d", "e"⟩] none
      = Except.error "Data processing failed: Invalid time value" :=
  c4_amended_invalid_timestamp testEnv2
    [⟨"5", "s", "n", "i", "v", "t"⟩, ⟨"x", "a", "b", "c", "d", "e"⟩]
    ⟨"x", "a", "b", "c", "d", "e"⟩
    (fun t => by show ("00:00" : String) ≠ "Invalid Date"; decide)
    (by decide) (by decide) rfl
